import Mathlib

/- Shallow embedding of the rust_db repository: wire codec (src/protocol.rs),
   table store and execution engine (src/db.rs, src/commands.rs), and the
   dispatch loop (src/main.rs).  Rust strings are modelled by their UTF-8
   byte sequences (List Nat), machine integers by Nat/Int with explicit
   modular reductions, and HashMaps by association lists in iteration order. -/

abbrev Str := List Nat

def strBytes (s : String) : Str := s.data.map Char.toNat

/- Data model, from src/db_types.rs and src/db.rs. -/

inductive ColumnType where
  | int
  | text
  | bool
deriving DecidableEq

inductive Value where
  | int (i : Int)
  | text (s : Str)
  | bool (b : Bool)
deriving DecidableEq

inductive DbCommand where
  | createTable (table : Str) (columns : List (Str × ColumnType))
  | insertRow (table : Str) (values : List Value)
  | updateRow (table : Str) (rowId : Nat) (updates : List (Str × Value))
  | selectAll (table : Str)
  | getTables
deriving DecidableEq

inductive DbResult where
  | ok
  | rows (columns : List Str) (rws : List (Nat × List Value))
deriving DecidableEq

/- Decode errors: a protocol error carrying a message (anyhow / Err(String)),
   or a Rust panic (out-of-bounds sliceB or index). -/
inductive DErr where
  | protocol (msg : Str)
  | panic
deriving DecidableEq

abbrev Dec (α : Type) := Except DErr α

/- Big-endian integer encodings; the mods mirror Rust `as u8`, `as u16`,
   `as u32` casts combined with `to_be_bytes`. -/

def u16be (n : Nat) : List Nat := [n / 256 % 256, n % 256]

def u32be (n : Nat) : List Nat :=
  [n / 16777216 % 256, n / 65536 % 256, n / 256 % 256, n % 256]

def u64be (n : Nat) : List Nat :=
  [n / 72057594037927936 % 256, n / 281474976710656 % 256,
   n / 1099511627776 % 256, n / 4294967296 % 256,
   n / 16777216 % 256, n / 65536 % 256, n / 256 % 256, n % 256]

def beVal (bs : List Nat) : Nat := bs.foldl (fun a b => a * 256 + b) 0

/- Two's-complement view of i64 stored in a u64 bit pattern. -/
def i64ToU64 (i : Int) : Nat := (i % 18446744073709551616).toNat

def u64AsI64 (n : Nat) : Int :=
  if n < 9223372036854775808 then (n : Int) else (n : Int) - 18446744073709551616

/- UTF-8 validation (String::from_utf8) and lossy decoding
   (String::from_utf8_lossy), via a single head-sequence classifier. -/

def isCont (b : Nat) : Bool := 128 ≤ b && b ≤ 191

def utf8Head : List Nat → Option (List Nat × List Nat)
  | [] => none
  | b :: rest =>
    if b ≤ 127 then some ([b], rest)
    else if 194 ≤ b && b ≤ 223 then
      match rest with
      | c1 :: r => if isCont c1 then some ([b, c1], r) else none
      | [] => none
    else if b == 224 then
      match rest with
      | c1 :: c2 :: r =>
        if (160 ≤ c1 && c1 ≤ 191) && isCont c2 then some ([b, c1, c2], r) else none
      | _ => none
    else if (225 ≤ b && b ≤ 236) || b == 238 || b == 239 then
      match rest with
      | c1 :: c2 :: r =>
        if isCont c1 && isCont c2 then some ([b, c1, c2], r) else none
      | _ => none
    else if b == 237 then
      match rest with
      | c1 :: c2 :: r =>
        if (128 ≤ c1 && c1 ≤ 159) && isCont c2 then some ([b, c1, c2], r) else none
      | _ => none
    else if b == 240 then
      match rest with
      | c1 :: c2 :: c3 :: r =>
        if (144 ≤ c1 && c1 ≤ 191) && isCont c2 && isCont c3 then
          some ([b, c1, c2, c3], r) else none
      | _ => none
    else if 241 ≤ b && b ≤ 243 then
      match rest with
      | c1 :: c2 :: c3 :: r =>
        if isCont c1 && isCont c2 && isCont c3 then some ([b, c1, c2, c3], r) else none
      | _ => none
    else if b == 244 then
      match rest with
      | c1 :: c2 :: c3 :: r =>
        if (128 ≤ c1 && c1 ≤ 143) && isCont c2 && isCont c3 then
          some ([b, c1, c2, c3], r) else none
      | _ => none
    else none

/- Fuel-indexed recursion; fuel at least the length of the list suffices
   since every step consumes at least one byte. -/
def vUtf8F : Nat → List Nat → Bool
  | 0, l => l.isEmpty
  | _ + 1, [] => true
  | f + 1, b :: rest =>
    match utf8Head (b :: rest) with
    | some (_, r) => vUtf8F f r
    | none => false

def validUtf8 (l : List Nat) : Bool := vUtf8F l.length l

def utf8Repl : List Nat := [239, 191, 189]

def lossyF : Nat → List Nat → List Nat
  | 0, _ => []
  | _ + 1, [] => []
  | f + 1, b :: rest =>
    match utf8Head (b :: rest) with
    | some (cs, r) => cs ++ lossyF f r
    | none => utf8Repl ++ lossyF f rest

def utf8Lossy (l : List Nat) : List Nat := lossyF l.length l

/- Encoders, from src/protocol.rs (write_string, encode_value,
   encode_command, encode_result, encode_rows, encode_error).  The Rust code
   pushes bytes into a growing buffer; here each encoder returns the bytes
   it appends. -/

def write_string (s : Str) : List Nat := u16be s.length ++ s

def typeTag : ColumnType → Nat
  | .int => 1
  | .text => 2
  | .bool => 3

def encode_value : Value → List Nat
  | .int i => 1 :: u64be (i64ToU64 i)
  | .text s => 2 :: write_string s
  | .bool b => [3, if b then 1 else 0]

def encode_command : DbCommand → List Nat
  | .getTables => [5]
  | .createTable t cols =>
    1 :: (write_string t ++ [cols.length % 256] ++
      cols.flatMap (fun p => write_string p.1 ++ [typeTag p.2]))
  | .insertRow t vs =>
    2 :: (write_string t ++ [vs.length % 256] ++ vs.flatMap encode_value)
  | .updateRow t rid us =>
    3 :: (write_string t ++ u64be rid ++ [us.length % 256] ++
      us.flatMap (fun p => write_string p.1 ++ encode_value p.2))
  | .selectAll t => 4 :: write_string t

def encode_rows (cols : List Str) (rws : List (Nat × List Value)) : List Nat :=
  0 :: ([cols.length % 256] ++ cols.flatMap write_string ++ u32be rws.length ++
    rws.flatMap (fun r => u64be r.1 ++ r.2.flatMap encode_value))

def encode_result : DbResult → List Nat
  | .ok => [0]
  | .rows cols rws => encode_rows cols rws

def encode_error (msg : Str) : List Nat := 1 :: (u16be msg.length ++ msg)

/- Command decoding, from src/protocol.rs (Cursor, parse_command,
   parse_value).  Every multi-byte read goes through Cursor.take, which
   checks the remaining length and reports a protocol error. -/

structure Cursor where
  buf : List Nat
  pos : Nat
deriving DecidableEq

def Cursor.take (c : Cursor) (n : Nat) : Dec (List Nat × Cursor) :=
  if c.pos + n > c.buf.length then
    .error (.protocol (strBytes ("Unexpected end of buffer")))
  else .ok ((c.buf.drop c.pos).take n, ⟨c.buf, c.pos + n⟩)

def Cursor.u8 (c : Cursor) : Dec (Nat × Cursor) :=
  match c.take 1 with
  | .error e => .error e
  | .ok (bs, c1) => .ok (bs.headD 0, c1)

def Cursor.u16 (c : Cursor) : Dec (Nat × Cursor) :=
  match c.take 2 with
  | .error e => .error e
  | .ok (bs, c1) => .ok (beVal bs, c1)

def Cursor.u64 (c : Cursor) : Dec (Nat × Cursor) :=
  match c.take 8 with
  | .error e => .error e
  | .ok (bs, c1) => .ok (beVal bs, c1)

def Cursor.string (c : Cursor) : Dec (Str × Cursor) :=
  match c.u16 with
  | .error e => .error e
  | .ok (len, c1) =>
    match c1.take len with
    | .error e => .error e
    | .ok (bs, c2) =>
      if validUtf8 bs then .ok (bs, c2)
      else .error (.protocol (strBytes ("invalid utf-8 sequence")))

def parse_value (c : Cursor) : Dec (Value × Cursor) :=
  match c.u8 with
  | .error e => .error e
  | .ok (t, c1) =>
    if t = 1 then
      match c1.u64 with
      | .error e => .error e
      | .ok (n, c2) => .ok (.int (u64AsI64 n), c2)
    else if t = 2 then
      match c1.string with
      | .error e => .error e
      | .ok (s, c2) => .ok (.text s, c2)
    else if t = 3 then
      match c1.u8 with
      | .error e => .error e
      | .ok (b, c2) => .ok (.bool (b != 0), c2)
    else .error (.protocol (strBytes ("Unknown value type")))

def parseColsN : Nat → Cursor → Dec (List (Str × ColumnType) × Cursor)
  | 0, c => .ok ([], c)
  | n + 1, c =>
    match c.string with
    | .error e => .error e
    | .ok (nm, c1) =>
      match c1.u8 with
      | .error e => .error e
      | .ok (tb, c2) =>
        match (if tb = 1 then some ColumnType.int
               else if tb = 2 then some ColumnType.text
               else if tb = 3 then some ColumnType.bool
               else none) with
        | none => .error (.protocol (strBytes ("Unknown column type")))
        | some ty =>
          match parseColsN n c2 with
          | .error e => .error e
          | .ok (rest, c3) => .ok ((nm, ty) :: rest, c3)

def parseValsN : Nat → Cursor → Dec (List Value × Cursor)
  | 0, c => .ok ([], c)
  | n + 1, c =>
    match parse_value c with
    | .error e => .error e
    | .ok (v, c1) =>
      match parseValsN n c1 with
      | .error e => .error e
      | .ok (rest, c2) => .ok (v :: rest, c2)

def parseUpdsN : Nat → Cursor → Dec (List (Str × Value) × Cursor)
  | 0, c => .ok ([], c)
  | n + 1, c =>
    match c.string with
    | .error e => .error e
    | .ok (nm, c1) =>
      match parse_value c1 with
      | .error e => .error e
      | .ok (v, c2) =>
        match parseUpdsN n c2 with
        | .error e => .error e
        | .ok (rest, c3) => .ok ((nm, v) :: rest, c3)

def parse_command (buf : List Nat) : Dec DbCommand :=
  match Cursor.u8 ⟨buf, 0⟩ with
  | .error e => .error e
  | .ok (op, c) =>
    if op = 1 then
      match c.string with
      | .error e => .error e
      | .ok (t, c1) =>
        match c1.u8 with
        | .error e => .error e
        | .ok (count, c2) =>
          match parseColsN count c2 with
          | .error e => .error e
          | .ok (cols, _) => .ok (.createTable t cols)
    else if op = 2 then
      match c.string with
      | .error e => .error e
      | .ok (t, c1) =>
        match c1.u8 with
        | .error e => .error e
        | .ok (count, c2) =>
          match parseValsN count c2 with
          | .error e => .error e
          | .ok (vs, _) => .ok (.insertRow t vs)
    else if op = 3 then
      match c.string with
      | .error e => .error e
      | .ok (t, c1) =>
        match c1.u64 with
        | .error e => .error e
        | .ok (rid, c2) =>
          match c2.u8 with
          | .error e => .error e
          | .ok (count, c3) =>
            match parseUpdsN count c3 with
            | .error e => .error e
            | .ok (us, _) => .ok (.updateRow t rid us)
    else if op = 4 then
      match c.string with
      | .error e => .error e
      | .ok (t, _) => .ok (.selectAll t)
    else if op = 5 then .ok .getTables
    else .error (.protocol (strBytes ("Unknown command opcode")))

/- Result decoding, from src/protocol.rs (decode_response).  The Rust code
   indexes and slices `data` directly without bounds checks, so every read
   here can fail with a panic outcome when it would read out of bounds. -/

def idx (data : List Nat) (i : Nat) : Dec Nat :=
  if i < data.length then .ok (data.getD i 0) else .error .panic

def sliceB (data : List Nat) (a b : Nat) : Dec (List Nat) :=
  if a ≤ b ∧ b ≤ data.length then .ok ((data.drop a).take (b - a))
  else .error .panic

def rdU16L (data : List Nat) (p : Nat) : Dec Nat :=
  match idx data p with
  | .error e => .error e
  | .ok b0 =>
    match idx data (p + 1) with
    | .error e => .error e
    | .ok b1 => .ok (b0 * 256 + b1)

def rdU32L (data : List Nat) (p : Nat) : Dec Nat :=
  match idx data p with
  | .error e => .error e
  | .ok b0 =>
    match idx data (p + 1) with
    | .error e => .error e
    | .ok b1 =>
      match idx data (p + 2) with
      | .error e => .error e
      | .ok b2 =>
        match idx data (p + 3) with
        | .error e => .error e
        | .ok b3 => .ok (((b0 * 256 + b1) * 256 + b2) * 256 + b3)

def rdStrLossy (data : List Nat) (p : Nat) : Dec (Str × Nat) :=
  match rdU16L data p with
  | .error e => .error e
  | .ok len =>
    match sliceB data (p + 2) (p + 2 + len) with
    | .error e => .error e
    | .ok bs => .ok (utf8Lossy bs, p + 2 + len)

def rdColsL : Nat → List Nat → Nat → Dec (List Str × Nat)
  | 0, _, p => .ok ([], p)
  | n + 1, data, p =>
    match rdStrLossy data p with
    | .error e => .error e
    | .ok (s, p1) =>
      match rdColsL n data p1 with
      | .error e => .error e
      | .ok (rest, p2) => .ok (s :: rest, p2)

def rdValL (data : List Nat) (p : Nat) : Dec (Value × Nat) :=
  match idx data p with
  | .error e => .error e
  | .ok t =>
    if t = 1 then
      match sliceB data (p + 1) (p + 1 + 8) with
      | .error e => .error e
      | .ok bs => .ok (.int (u64AsI64 (beVal bs)), p + 1 + 8)
    else if t = 2 then
      match rdStrLossy data (p + 1) with
      | .error e => .error e
      | .ok (s, p1) => .ok (.text s, p1)
    else if t = 3 then
      match idx data (p + 1) with
      | .error e => .error e
      | .ok b => .ok (.bool (b != 0), p + 1 + 1)
    else .error (.protocol (strBytes ("Unknown value type")))

def rdValsL : Nat → List Nat → Nat → Dec (List Value × Nat)
  | 0, _, p => .ok ([], p)
  | n + 1, data, p =>
    match rdValL data p with
    | .error e => .error e
    | .ok (v, p1) =>
      match rdValsL n data p1 with
      | .error e => .error e
      | .ok (rest, p2) => .ok (v :: rest, p2)

def rdRowsL : Nat → Nat → List Nat → Nat → Dec (List (Nat × List Value) × Nat)
  | 0, _, _, p => .ok ([], p)
  | n + 1, cc, data, p =>
    match sliceB data p (p + 8) with
    | .error e => .error e
    | .ok bs =>
      match rdValsL cc data (p + 8) with
      | .error e => .error e
      | .ok (vals, p1) =>
        match rdRowsL n cc data p1 with
        | .error e => .error e
        | .ok (rest, p2) => .ok ((beVal bs, vals) :: rest, p2)

def decode_response (data : List Nat) : Dec DbResult :=
  match data with
  | [] => .error (.protocol (strBytes ("Empty response")))
  | b :: _ =>
    if b = 0 then
      if data.length = 1 then .ok .ok
      else
        match idx data 1 with
        | .error e => .error e
        | .ok cc =>
          match rdColsL cc data 2 with
          | .error e => .error e
          | .ok (cols, p) =>
            match rdU32L data p with
            | .error e => .error e
            | .ok rc =>
              match rdRowsL rc cc data (p + 4) with
              | .error e => .error e
              | .ok (rws, _) => .ok (.rows cols rws)
    else if b = 1 then
      match idx data 1 with
      | .error e => .error e
      | .ok b1 =>
        match idx data 2 with
        | .error e => .error e
        | .ok b2 =>
          match sliceB data 3 (3 + (b1 * 256 + b2)) with
          | .error e => .error e
          | .ok bs => .error (.protocol (utf8Lossy bs))
    else .error (.protocol (strBytes ("Unknown response type")))

/- Table store, from src/db_types.rs and src/db.rs.  HashMaps are modelled
   as association lists in iteration order: lookup finds the first matching
   key, insert replaces in place or appends a fresh key at the end. -/

structure Column where
  name : Str
  col_type : ColumnType
deriving DecidableEq

structure Table where
  name : Str
  columns : List Column
  rows : List (Nat × List Value)
  next_row_id : Nat
deriving DecidableEq

structure Database where
  tables : List (Str × Table)
deriving DecidableEq

def emptyDb : Database := ⟨[]⟩

def getA {α : Type} : List (Str × α) → Str → Option α
  | [], _ => none
  | (k, v) :: rest, key => if k = key then some v else getA rest key

def setA {α : Type} : List (Str × α) → Str → α → List (Str × α)
  | [], key, v => [(key, v)]
  | (k, w) :: rest, key, v =>
    if k = key then (key, v) :: rest else (k, w) :: setA rest key v

def lookupRow : List (Nat × List Value) → Nat → Option (List Value)
  | [], _ => none
  | (k, v) :: rest, key => if k = key then some v else lookupRow rest key

def setRowVals : List (Nat × List Value) → Nat → List Value → List (Nat × List Value)
  | [], _, _ => []
  | (k, w) :: rest, key, v =>
    if k = key then (k, v) :: rest else (k, w) :: setRowVals rest key v

def value_matches_type : Value → ColumnType → Bool
  | .int _, .int => true
  | .text _, .text => true
  | .bool _, .bool => true
  | _, _ => false

/- Left-to-right type check of insert_row (the zip loop): name of the first
   mismatching column, if any. -/
def checkTypes : List Value → List Column → Option Str
  | v :: vs, c :: cs =>
    if value_matches_type v c.col_type then checkTypes vs cs else some c.name
  | _, _ => none

/- Iterator::position over the column list. -/
def firstIdx : List Column → Str → Option Nat
  | [], _ => none
  | c :: cs, nm => if c.name = nm then some 0 else (firstIdx cs nm).map (· + 1)

def dfltCol : Column := ⟨[], .int⟩

def msgTableNotFound : Str := strBytes ("Table not found")
def msgTableExists : Str := strBytes ("Table already exists")
def msgColCount : Str := strBytes ("Column count mismatch")
def msgColNotFound : Str := strBytes ("Column not found")
def msgRowNotFound : Str := strBytes ("Row not found")
def msgTypePre : Str := strBytes ("Type mismatch for column ")

/- The update loop of update_row: applied one pair at a time; on failure the
   row mutated so far is kept (the caller writes it back regardless). -/
def applyUpdates (cols : List Column) :
    List Value → List (Str × Value) → Except Str DbResult × List Value
  | row, [] => (.ok .ok, row)
  | row, (nm, v) :: rest =>
    match firstIdx cols nm with
    | none => (.error msgColNotFound, row)
    | some i =>
      if value_matches_type v (cols.getD i dfltCol).col_type then
        applyUpdates cols (row.set i v) rest
      else (.error (msgTypePre ++ nm), row)

/- Stable sort by row id (rows.sort_by_key in select_all). -/
def keyLe (a b : Nat × List Value) : Prop := a.1 ≤ b.1

instance : DecidableRel keyLe := fun a b => Nat.decLe a.1 b.1

def sortByKey (l : List (Nat × List Value)) : List (Nat × List Value) :=
  l.insertionSort keyLe

/- Schema enumeration, from src/commands.rs (get_tables): one synthetic row
   per (table, column) pair with a counter starting at 1. -/

def renderType : ColumnType → Str
  | .int => strBytes ("int")
  | .text => strBytes ("text")
  | .bool => strBytes ("bool")

def gtColsRows (nm : Str) : List Column → Nat → List (Nat × List Value)
  | [], _ => []
  | c :: cs, id =>
    (id, [.text nm, .text c.name, .text (renderType c.col_type)]) ::
      gtColsRows nm cs (id + 1)

def gtRows : List (Str × Table) → Nat → List (Nat × List Value)
  | [], _ => []
  | (nm, t) :: rest, id =>
    gtColsRows nm t.columns id ++ gtRows rest (id + t.columns.length)

def get_tables (db : Database) : Except Str DbResult :=
  .ok (.rows
    [strBytes ("table_name"), strBytes ("column_name"), strBytes ("column_type")]
    (gtRows db.tables 1))

/- Database::execute, from src/db.rs (plus the get_tables arm of
   src/commands.rs).  Returns the result together with the store after the
   command; a failing update still commits the partially mutated row. -/
def exec (cmd : DbCommand) (db : Database) : Except Str DbResult × Database :=
  match cmd with
  | .selectAll t =>
    match getA db.tables t with
    | none => (.error msgTableNotFound, db)
    | some tbl =>
      (.ok (.rows (tbl.columns.map Column.name) (sortByKey tbl.rows)), db)
  | .createTable t cols =>
    match getA db.tables t with
    | some _ => (.error msgTableExists, db)
    | none =>
      (.ok .ok,
       ⟨setA db.tables t ⟨t, cols.map (fun p => ⟨p.1, p.2⟩), [], 1⟩⟩)
  | .insertRow t vs =>
    match getA db.tables t with
    | none => (.error msgTableNotFound, db)
    | some tbl =>
      if vs.length ≠ tbl.columns.length then (.error msgColCount, db)
      else
        match checkTypes vs tbl.columns with
        | some nm => (.error (msgTypePre ++ nm), db)
        | none =>
          (.ok .ok,
           ⟨setA db.tables t
             { tbl with rows := tbl.rows ++ [(tbl.next_row_id, vs)],
                        next_row_id := tbl.next_row_id + 1 }⟩)
  | .updateRow t rid us =>
    match getA db.tables t with
    | none => (.error msgTableNotFound, db)
    | some tbl =>
      match lookupRow tbl.rows rid with
      | none => (.error msgRowNotFound, db)
      | some row =>
        let pr := applyUpdates tbl.columns row us
        (pr.1, ⟨setA db.tables t { tbl with rows := setRowVals tbl.rows rid pr.2 }⟩)
  | .getTables => (get_tables db, db)

/- Dispatch loop, from src/main.rs (the logic loop): decode, execute, encode;
   decode failures become encoded protocol-error replies and leave the store
   untouched.  runLoop processes a whole queue of submitted buffers, one
   reply per buffer. -/

def encode_ok : List Nat := [0]

def errText : DErr → Str
  | .protocol m => m
  | .panic => strBytes ("panic")

def handle (data : List Nat) (db : Database) : List Nat × Database :=
  match parse_command data with
  | .ok cmd =>
    let pr := exec cmd db
    (match pr.1 with
     | .ok .ok => encode_ok
     | .ok (.rows cols rws) => encode_rows cols rws
     | .error e => encode_error e, pr.2)
  | .error e => (encode_error (strBytes ("Protocol error: ") ++ errText e), db)

def runLoop : List (List Nat) → Database → List (List Nat) × Database
  | [], db => ([], db)
  | d :: ds, db =>
    let pr := handle d db
    let rest := runLoop ds pr.2
    (pr.1 :: rest.1, rest.2)

def execList (cmds : List DbCommand) (db : Database) : Database :=
  cmds.foldl (fun d c => (exec c d).2) db

def lookupRowInDb (db : Database) (t : Str) (rid : Nat) : Option (List Value) :=
  match getA db.tables t with
  | none => none
  | some tbl => lookupRow tbl.rows rid

/- Well-formedness of in-memory values with respect to the Rust types and
   the wire format bounds: strings are valid UTF-8 of at most 65535 bytes,
   counts fit the u8/u32 prefixes, ids fit u64, ints fit i64, and each row
   carries one value per column. -/

def strWF (s : Str) : Bool := decide (s.length < 65536) && validUtf8 s

def valueWF : Value → Bool
  | .int i => decide (-9223372036854775808 ≤ i) && decide (i < 9223372036854775808)
  | .text s => strWF s
  | .bool _ => true

def cmdWF : DbCommand → Bool
  | .createTable t cols =>
    strWF t && decide (cols.length < 256) && cols.all (fun p => strWF p.1)
  | .insertRow t vs => strWF t && decide (vs.length < 256) && vs.all valueWF
  | .updateRow t rid us =>
    strWF t && decide (rid < 18446744073709551616) && decide (us.length < 256) &&
      us.all (fun p => strWF p.1 && valueWF p.2)
  | .selectAll t => strWF t
  | .getTables => true

def rowWF (ncols : Nat) (r : Nat × List Value) : Bool :=
  decide (r.1 < 18446744073709551616) && decide (r.2.length = ncols) &&
    r.2.all valueWF

def resultWF : DbResult → Bool
  | .ok => true
  | .rows cols rws =>
    decide (cols.length < 256) && cols.all strWF &&
      decide (rws.length < 4294967296) && rws.all (rowWF cols.length)

/- Arithmetic facts about the byte encodings. -/

theorem beVal_u16be (n : Nat) : beVal (u16be n) = n % 65536 := by
  simp [beVal, u16be]
  omega

theorem beVal_u32be (n : Nat) : beVal (u32be n) = n % 4294967296 := by
  simp [beVal, u32be]
  omega

theorem beVal_u64be (n : Nat) : beVal (u64be n) = n % 18446744073709551616 := by
  simp [beVal, u64be]
  omega

theorem length_u16be (n : Nat) : (u16be n).length = 2 := rfl

theorem length_u32be (n : Nat) : (u32be n).length = 4 := rfl

theorem length_u64be (n : Nat) : (u64be n).length = 8 := rfl

theorem i64ToU64_lt (i : Int) : i64ToU64 i < 18446744073709551616 := by
  unfold i64ToU64
  omega

theorem u64AsI64_i64ToU64 (i : Int) (h1 : -9223372036854775808 ≤ i)
    (h2 : i < 9223372036854775808) : u64AsI64 (i64ToU64 i) = i := by
  unfold u64AsI64 i64ToU64
  split
  · omega
  · omega

/- Reading back what an encoder wrote: the cursor sits at position pos of a
   buffer whose remainder starts with the encoded bytes. -/

theorem drop_step {buf x suf : List Nat} {pos : Nat}
    (hp : pos ≤ buf.length) (hd : buf.drop pos = x ++ suf) :
    pos + x.length ≤ buf.length ∧ buf.drop (pos + x.length) = suf := by
  have hl := congrArg List.length hd
  simp [List.length_drop] at hl
  refine ⟨by omega, ?_⟩
  have h2 : buf.drop (pos + x.length) = (buf.drop pos).drop x.length := by
    rw [List.drop_drop]
  rw [h2, hd, List.drop_left]

theorem take_ok {buf x suf : List Nat} {pos : Nat}
    (hp : pos ≤ buf.length) (hd : buf.drop pos = x ++ suf) :
    Cursor.take ⟨buf, pos⟩ x.length = .ok (x, ⟨buf, pos + x.length⟩) := by
  have hl := congrArg List.length hd
  simp [List.length_drop] at hl
  unfold Cursor.take
  rw [if_neg (by simp; omega)]
  simp only [hd, List.take_left]

theorem u8_ok {buf suf : List Nat} {pos b : Nat}
    (hp : pos ≤ buf.length) (hd : buf.drop pos = b :: suf) :
    Cursor.u8 ⟨buf, pos⟩ = .ok (b, ⟨buf, pos + 1⟩) := by
  unfold Cursor.u8
  have h := take_ok (x := [b]) hp (by simpa using hd)
  have h1 : ([b] : List Nat).length = 1 := rfl
  rw [h1] at h
  rw [h]
  rfl

theorem u16_ok {buf suf : List Nat} {pos n : Nat}
    (hp : pos ≤ buf.length) (hd : buf.drop pos = u16be n ++ suf) :
    Cursor.u16 ⟨buf, pos⟩ = .ok (n % 65536, ⟨buf, pos + 2⟩) := by
  unfold Cursor.u16
  have h := take_ok (x := u16be n) hp hd
  rw [length_u16be] at h
  rw [h]
  show Except.ok (beVal (u16be n), (⟨buf, pos + 2⟩ : Cursor)) = _
  rw [beVal_u16be]

theorem u64_ok {buf suf : List Nat} {pos n : Nat}
    (hp : pos ≤ buf.length) (hd : buf.drop pos = u64be n ++ suf) :
    Cursor.u64 ⟨buf, pos⟩ = .ok (n % 18446744073709551616, ⟨buf, pos + 8⟩) := by
  unfold Cursor.u64
  have h := take_ok (x := u64be n) hp hd
  rw [length_u64be] at h
  rw [h]
  show Except.ok (beVal (u64be n), (⟨buf, pos + 8⟩ : Cursor)) = _
  rw [beVal_u64be]

theorem string_ok {buf suf : List Nat} {pos : Nat} {s : Str}
    (hp : pos ≤ buf.length) (hd : buf.drop pos = write_string s ++ suf)
    (h1 : s.length < 65536) (h2 : validUtf8 s = true) :
    Cursor.string ⟨buf, pos⟩ = .ok (s, ⟨buf, pos + 2 + s.length⟩) := by
  have hd' : buf.drop pos = u16be s.length ++ (s ++ suf) := by
    simpa [write_string] using hd
  have hstep := drop_step (x := u16be s.length) hp hd'
  rw [length_u16be] at hstep
  have h3 : s.length % 65536 = s.length := Nat.mod_eq_of_lt h1
  unfold Cursor.string
  simp only [u16_ok hp hd', h3, take_ok (x := s) hstep.1 hstep.2, h2]
  simp

theorem parse_value_ok {buf suf : List Nat} {pos : Nat} {v : Value}
    (hp : pos ≤ buf.length) (hd : buf.drop pos = encode_value v ++ suf)
    (hwf : valueWF v = true) :
    parse_value ⟨buf, pos⟩ = .ok (v, ⟨buf, pos + (encode_value v).length⟩) := by
  cases v with
  | int i =>
    simp only [valueWF, Bool.and_eq_true, decide_eq_true_eq] at hwf
    have hd' : buf.drop pos = [1] ++ (u64be (i64ToU64 i) ++ suf) := by
      simpa [encode_value] using hd
    have hstep := drop_step (x := [1]) hp hd'
    have h1 : ([1] : List Nat).length = 1 := rfl
    rw [h1] at hstep
    have hm : i64ToU64 i % 18446744073709551616 = i64ToU64 i :=
      Nat.mod_eq_of_lt (i64ToU64_lt i)
    unfold parse_value
    simp only [u8_ok hp (by simpa using hd'), u64_ok hstep.1 hstep.2, hm,
      u64AsI64_i64ToU64 i hwf.1 hwf.2]
    simp [encode_value, length_u64be]
  | text s =>
    simp only [valueWF, strWF, Bool.and_eq_true, decide_eq_true_eq] at hwf
    have hd' : buf.drop pos = [2] ++ (write_string s ++ suf) := by
      simpa [encode_value] using hd
    have hstep := drop_step (x := [2]) hp hd'
    have h1 : ([2] : List Nat).length = 1 := rfl
    rw [h1] at hstep
    unfold parse_value
    simp only [u8_ok hp (by simpa using hd'), string_ok hstep.1 hstep.2 hwf.1 hwf.2]
    simp [encode_value, write_string, length_u16be]
    omega
  | bool b =>
    have hd' : buf.drop pos = [3] ++ ([if b then 1 else 0] ++ suf) := by
      simpa [encode_value] using hd
    have hstep := drop_step (x := [3]) hp hd'
    have h1 : ([3] : List Nat).length = 1 := rfl
    rw [h1] at hstep
    unfold parse_value
    simp only [u8_ok hp (by simpa using hd'),
      u8_ok hstep.1 (by simpa using hstep.2)]
    cases b <;> simp [encode_value]

theorem length_write_string (s : Str) : (write_string s).length = 2 + s.length := by
  simp [write_string, u16be]
  omega

theorem parseValsN_ok :
    ∀ (vs : List Value) {buf suf : List Nat} {pos : Nat},
    pos ≤ buf.length →
    buf.drop pos = vs.flatMap encode_value ++ suf →
    vs.all valueWF = true →
    parseValsN vs.length ⟨buf, pos⟩ =
      .ok (vs, ⟨buf, pos + (vs.flatMap encode_value).length⟩) := by
  intro vs
  induction vs with
  | nil => intro buf suf pos hp hd hwf; simp [parseValsN]
  | cons v rest ih =>
    intro buf suf pos hp hd hwf
    simp only [List.all_cons, Bool.and_eq_true] at hwf
    have hd1 : buf.drop pos = encode_value v ++ (rest.flatMap encode_value ++ suf) := by
      simpa [List.flatMap_cons, List.append_assoc] using hd
    have hs1 := drop_step (x := encode_value v) hp hd1
    show parseValsN (rest.length + 1) ⟨buf, pos⟩ = _
    unfold parseValsN
    simp only [parse_value_ok hp hd1 hwf.1, ih hs1.1 hs1.2 hwf.2]
    congr 2
    simp [List.flatMap_cons]
    omega

theorem parseColsN_ok :
    ∀ (cols : List (Str × ColumnType)) {buf suf : List Nat} {pos : Nat},
    pos ≤ buf.length →
    buf.drop pos = cols.flatMap (fun p => write_string p.1 ++ [typeTag p.2]) ++ suf →
    cols.all (fun p => strWF p.1) = true →
    parseColsN cols.length ⟨buf, pos⟩ =
      .ok (cols, ⟨buf,
        pos + (cols.flatMap (fun p => write_string p.1 ++ [typeTag p.2])).length⟩) := by
  intro cols
  induction cols with
  | nil => intro buf suf pos hp hd hwf; simp [parseColsN]
  | cons p rest ih =>
    obtain ⟨nm, ty⟩ := p
    intro buf suf pos hp hd hwf
    simp only [List.all_cons, Bool.and_eq_true] at hwf
    have hwf1 := hwf.1
    simp only [strWF, Bool.and_eq_true, decide_eq_true_eq] at hwf1
    have hd1 : buf.drop pos =
        write_string nm ++ ([typeTag ty] ++
          (rest.flatMap (fun p => write_string p.1 ++ [typeTag p.2]) ++ suf)) := by
      simpa [List.flatMap_cons, List.append_assoc] using hd
    have hs1 := drop_step (x := write_string nm) hp hd1
    rw [length_write_string] at hs1
    obtain ⟨ha1, hb1⟩ := hs1
    rw [← Nat.add_assoc] at ha1 hb1
    have hs2 := drop_step (x := [typeTag ty]) ha1 hb1
    have h1 : ([typeTag ty] : List Nat).length = 1 := rfl
    rw [h1] at hs2
    obtain ⟨ha2, hb2⟩ := hs2
    show parseColsN (rest.length + 1) ⟨buf, pos⟩ = _
    unfold parseColsN
    simp only [string_ok hp hd1 hwf1.1 hwf1.2, u8_ok ha1 (by simpa using hb1)]
    cases ty <;>
      simp only [show typeTag ColumnType.int = 1 from rfl,
        show typeTag ColumnType.text = 2 from rfl,
        show typeTag ColumnType.bool = 3 from rfl, reduceIte] <;>
      simp only [ih ha2 hb2 hwf.2] <;>
      (congr 2; simp [List.flatMap_cons, length_write_string]; omega)

theorem parseUpdsN_ok :
    ∀ (us : List (Str × Value)) {buf suf : List Nat} {pos : Nat},
    pos ≤ buf.length →
    buf.drop pos = us.flatMap (fun p => write_string p.1 ++ encode_value p.2) ++ suf →
    us.all (fun p => strWF p.1 && valueWF p.2) = true →
    parseUpdsN us.length ⟨buf, pos⟩ =
      .ok (us, ⟨buf,
        pos + (us.flatMap (fun p => write_string p.1 ++ encode_value p.2)).length⟩) := by
  intro us
  induction us with
  | nil => intro buf suf pos hp hd hwf; simp [parseUpdsN]
  | cons p rest ih =>
    obtain ⟨nm, v⟩ := p
    intro buf suf pos hp hd hwf
    simp only [List.all_cons, Bool.and_eq_true] at hwf
    have hwf1 := hwf.1.1
    simp only [strWF, Bool.and_eq_true, decide_eq_true_eq] at hwf1
    have hd1 : buf.drop pos =
        write_string nm ++ (encode_value v ++
          (rest.flatMap (fun p => write_string p.1 ++ encode_value p.2) ++ suf)) := by
      simpa [List.flatMap_cons, List.append_assoc] using hd
    have hs1 := drop_step (x := write_string nm) hp hd1
    rw [length_write_string] at hs1
    obtain ⟨ha1, hb1⟩ := hs1
    rw [← Nat.add_assoc] at ha1 hb1
    have hs2 := drop_step (x := encode_value v) ha1 hb1
    obtain ⟨ha2, hb2⟩ := hs2
    show parseUpdsN (rest.length + 1) ⟨buf, pos⟩ = _
    unfold parseUpdsN
    simp only [string_ok hp hd1 hwf1.1 hwf1.2, parse_value_ok ha1 hb1 hwf.1.2,
      ih ha2 hb2 hwf.2]
    congr 2
    simp [List.flatMap_cons, length_write_string]
    omega

theorem parse_command_roundtrip (c : DbCommand) (hwf : cmdWF c = true) :
    parse_command (encode_command c) = .ok c := by
  cases c with
  | getTables => rfl
  | selectAll t =>
    simp only [cmdWF, strWF, Bool.and_eq_true, decide_eq_true_eq] at hwf
    unfold parse_command
    have h0 : (encode_command (.selectAll t)).drop 0 = 4 :: (write_string t ++ []) := by
      simp [encode_command]
    have h1 : (encode_command (.selectAll t)).drop 1 = write_string t ++ [] := by
      simp [encode_command]
    have hp1 : 1 ≤ (encode_command (.selectAll t)).length := by
      simp [encode_command, write_string]
    simp only [u8_ok (Nat.zero_le _) h0, string_ok hp1 h1 hwf.1 hwf.2]
    simp
  | createTable t cols =>
    simp only [cmdWF, Bool.and_eq_true, decide_eq_true_eq] at hwf
    obtain ⟨⟨hst, hcnt⟩, hall⟩ := hwf
    simp only [strWF, Bool.and_eq_true, decide_eq_true_eq] at hst
    unfold parse_command
    have h0 : (encode_command (.createTable t cols)).drop 0 =
        1 :: (write_string t ++ ([cols.length % 256] ++
          (cols.flatMap (fun p => write_string p.1 ++ [typeTag p.2]) ++ []))) := by
      simp [encode_command]
    have h1 : (encode_command (.createTable t cols)).drop 1 =
        write_string t ++ ([cols.length % 256] ++
          (cols.flatMap (fun p => write_string p.1 ++ [typeTag p.2]) ++ [])) := by
      simp [encode_command]
    have hp1 : 1 ≤ (encode_command (.createTable t cols)).length := by
      simp [encode_command, write_string]
    have hs1 := drop_step (x := write_string t) hp1 h1
    rw [length_write_string] at hs1
    obtain ⟨ha1, hb1⟩ := hs1
    rw [← Nat.add_assoc] at ha1 hb1
    have hs2 := drop_step (x := [cols.length % 256]) ha1 hb1
    have hl1 : ([cols.length % 256] : List Nat).length = 1 := rfl
    rw [hl1] at hs2
    obtain ⟨ha2, hb2⟩ := hs2
    have hmod : cols.length % 256 = cols.length := Nat.mod_eq_of_lt hcnt
    simp only [u8_ok (Nat.zero_le _) h0, string_ok hp1 h1 hst.1 hst.2,
      u8_ok ha1 (by simpa using hb1), hmod, parseColsN_ok cols ha2 hb2 hall]
    simp
  | insertRow t vs =>
    simp only [cmdWF, Bool.and_eq_true, decide_eq_true_eq] at hwf
    obtain ⟨⟨hst, hcnt⟩, hall⟩ := hwf
    simp only [strWF, Bool.and_eq_true, decide_eq_true_eq] at hst
    unfold parse_command
    have h0 : (encode_command (.insertRow t vs)).drop 0 =
        2 :: (write_string t ++ ([vs.length % 256] ++
          (vs.flatMap encode_value ++ []))) := by
      simp [encode_command]
    have h1 : (encode_command (.insertRow t vs)).drop 1 =
        write_string t ++ ([vs.length % 256] ++ (vs.flatMap encode_value ++ [])) := by
      simp [encode_command]
    have hp1 : 1 ≤ (encode_command (.insertRow t vs)).length := by
      simp [encode_command, write_string]
    have hs1 := drop_step (x := write_string t) hp1 h1
    rw [length_write_string] at hs1
    obtain ⟨ha1, hb1⟩ := hs1
    rw [← Nat.add_assoc] at ha1 hb1
    have hs2 := drop_step (x := [vs.length % 256]) ha1 hb1
    have hl1 : ([vs.length % 256] : List Nat).length = 1 := rfl
    rw [hl1] at hs2
    obtain ⟨ha2, hb2⟩ := hs2
    have hmod : vs.length % 256 = vs.length := Nat.mod_eq_of_lt hcnt
    simp only [u8_ok (Nat.zero_le _) h0, string_ok hp1 h1 hst.1 hst.2,
      u8_ok ha1 (by simpa using hb1), hmod, parseValsN_ok vs ha2 hb2 hall]
    simp
  | updateRow t rid us =>
    simp only [cmdWF, Bool.and_eq_true, decide_eq_true_eq] at hwf
    obtain ⟨⟨⟨hst, hrid⟩, hcnt⟩, hall⟩ := hwf
    simp only [strWF, Bool.and_eq_true, decide_eq_true_eq] at hst
    unfold parse_command
    have h0 : (encode_command (.updateRow t rid us)).drop 0 =
        3 :: (write_string t ++ (u64be rid ++ ([us.length % 256] ++
          (us.flatMap (fun p => write_string p.1 ++ encode_value p.2) ++ [])))) := by
      simp [encode_command]
    have h1 : (encode_command (.updateRow t rid us)).drop 1 =
        write_string t ++ (u64be rid ++ ([us.length % 256] ++
          (us.flatMap (fun p => write_string p.1 ++ encode_value p.2) ++ []))) := by
      simp [encode_command]
    have hp1 : 1 ≤ (encode_command (.updateRow t rid us)).length := by
      simp [encode_command, write_string]
    have hs1 := drop_step (x := write_string t) hp1 h1
    rw [length_write_string] at hs1
    obtain ⟨ha1, hb1⟩ := hs1
    rw [← Nat.add_assoc] at ha1 hb1
    have hs2 := drop_step (x := u64be rid) ha1 hb1
    rw [length_u64be] at hs2
    obtain ⟨ha2, hb2⟩ := hs2
    have hs3 := drop_step (x := [us.length % 256]) ha2 hb2
    have hl1 : ([us.length % 256] : List Nat).length = 1 := rfl
    rw [hl1] at hs3
    obtain ⟨ha3, hb3⟩ := hs3
    have hmodc : us.length % 256 = us.length := Nat.mod_eq_of_lt hcnt
    have hmodr : rid % 18446744073709551616 = rid := Nat.mod_eq_of_lt hrid
    simp only [u8_ok (Nat.zero_le _) h0, string_ok hp1 h1 hst.1 hst.2,
      u64_ok ha1 hb1, hmodr, u8_ok ha2 (by simpa using hb2), hmodc,
      parseUpdsN_ok us ha3 hb3 hall]
    simp

/- Lossy UTF-8 decoding is the identity on valid UTF-8 input. -/

theorem utf8Head_split {l cs r : List Nat} (h : utf8Head l = some (cs, r)) :
    cs ++ r = l ∧ r.length < l.length := by
  unfold utf8Head at h
  repeat' split at h
  all_goals
    first
      | exact Option.noConfusion h
      | (simp only [Option.some.injEq, Prod.mk.injEq] at h
         obtain ⟨h1, h2⟩ := h
         subst h1
         subst h2
         exact ⟨rfl, by simp only [List.length_cons]; omega⟩)

theorem lossyF_valid : ∀ (f : Nat) (l : List Nat), l.length ≤ f →
    vUtf8F f l = true → lossyF f l = l := by
  intro f
  induction f with
  | zero =>
    intro l hl hv
    cases l with
    | nil => rfl
    | cons b rest => simp at hl
  | succ f ih =>
    intro l hl hv
    match l with
    | [] => rfl
    | b :: rest =>
      cases hh : utf8Head (b :: rest) with
      | none =>
        simp only [vUtf8F, hh] at hv
        exact Bool.noConfusion hv
      | some pr =>
        obtain ⟨cs, r⟩ := pr
        simp only [vUtf8F, hh] at hv
        obtain ⟨hsplit, hlen⟩ := utf8Head_split hh
        simp only [lossyF, hh]
        simp only [List.length_cons] at hl hlen
        have hr : r.length ≤ f := by omega
        rw [ih r hr hv, hsplit]

theorem utf8Lossy_valid (l : List Nat) (h : validUtf8 l = true) :
    utf8Lossy l = l :=
  lossyF_valid l.length l le_rfl h

theorem idx_ok {data suf : List Nat} {pos b : Nat}
    (hp : pos ≤ data.length) (hd : data.drop pos = b :: suf) :
    idx data pos = .ok b := by
  have hlen := congrArg List.length hd
  simp [List.length_drop] at hlen
  have h3 : data.getD pos 0 = b := by
    have h4 : (data.drop pos).get? 0 = some b := by rw [hd]; rfl
    rw [List.get?_drop] at h4
    simp only [Nat.add_zero] at h4
    show (data.get? pos).getD 0 = b
    rw [h4]
    rfl
  unfold idx
  rw [if_pos (by omega), h3]

theorem sliceB_ok {data x suf : List Nat} {pos : Nat}
    (hp : pos ≤ data.length) (hd : data.drop pos = x ++ suf) :
    sliceB data pos (pos + x.length) = .ok x := by
  have hlen := congrArg List.length hd
  simp [List.length_drop] at hlen
  unfold sliceB
  rw [if_pos (by constructor <;> omega)]
  have h1 : pos + x.length - pos = x.length := by omega
  rw [h1, hd, List.take_left]

theorem rdU16L_ok {data suf : List Nat} {pos n : Nat}
    (hp : pos ≤ data.length) (hd : data.drop pos = u16be n ++ suf) :
    rdU16L data pos = .ok (n % 65536) := by
  have hd1 : data.drop pos = (n / 256 % 256) :: ((n % 256) :: suf) := by
    simpa [u16be] using hd
  have hs1 := drop_step (x := [n / 256 % 256]) hp (by simpa using hd1)
  have hl : ([n / 256 % 256] : List Nat).length = 1 := rfl
  rw [hl] at hs1
  unfold rdU16L
  simp only [idx_ok hp hd1, idx_ok hs1.1 hs1.2]
  congr 1
  omega

theorem rdU32L_ok {data suf : List Nat} {pos n : Nat}
    (hp : pos ≤ data.length) (hd : data.drop pos = u32be n ++ suf) :
    rdU32L data pos = .ok (n % 4294967296) := by
  have hd1 : data.drop pos = (n / 16777216 % 256) :: ((n / 65536 % 256) ::
      ((n / 256 % 256) :: ((n % 256) :: suf))) := by
    simpa [u32be] using hd
  have hs1 := drop_step (x := [n / 16777216 % 256]) hp (by simpa using hd1)
  have hl1 : ([n / 16777216 % 256] : List Nat).length = 1 := rfl
  rw [hl1] at hs1
  have hs2 := drop_step (x := [n / 65536 % 256]) hs1.1 (by simpa using hs1.2)
  have hl2 : ([n / 65536 % 256] : List Nat).length = 1 := rfl
  rw [hl2] at hs2
  have hs3 := drop_step (x := [n / 256 % 256]) hs2.1 (by simpa using hs2.2)
  have hl3 : ([n / 256 % 256] : List Nat).length = 1 := rfl
  rw [hl3] at hs3
  unfold rdU32L
  simp only [idx_ok hp hd1, idx_ok hs1.1 hs1.2, idx_ok hs2.1 hs2.2,
    idx_ok hs3.1 hs3.2]
  congr 1
  omega

theorem rdStrLossy_ok {data suf : List Nat} {pos : Nat} {s : Str}
    (hp : pos ≤ data.length) (hd : data.drop pos = write_string s ++ suf)
    (h1 : s.length < 65536) (h2 : validUtf8 s = true) :
    rdStrLossy data pos = .ok (s, pos + 2 + s.length) := by
  have hd' : data.drop pos = u16be s.length ++ (s ++ suf) := by
    simpa [write_string] using hd
  have hs1 := drop_step (x := u16be s.length) hp hd'
  rw [length_u16be] at hs1
  obtain ⟨ha1, hb1⟩ := hs1
  have hmod : s.length % 65536 = s.length := Nat.mod_eq_of_lt h1
  unfold rdStrLossy
  simp only [rdU16L_ok hp hd', hmod, sliceB_ok (x := s) ha1 hb1,
    utf8Lossy_valid s h2]

theorem rdColsL_ok :
    ∀ (cols : List Str) {data suf : List Nat} {pos : Nat},
    pos ≤ data.length →
    data.drop pos = cols.flatMap write_string ++ suf →
    cols.all strWF = true →
    rdColsL cols.length data pos =
      .ok (cols, pos + (cols.flatMap write_string).length) := by
  intro cols
  induction cols with
  | nil => intro data suf pos hp hd hwf; simp [rdColsL]
  | cons s rest ih =>
    intro data suf pos hp hd hwf
    simp only [List.all_cons, Bool.and_eq_true] at hwf
    have hwf1 := hwf.1
    simp only [strWF, Bool.and_eq_true, decide_eq_true_eq] at hwf1
    have hd1 : data.drop pos = write_string s ++ (rest.flatMap write_string ++ suf) := by
      simpa [List.flatMap_cons, List.append_assoc] using hd
    have hs1 := drop_step (x := write_string s) hp hd1
    rw [length_write_string] at hs1
    obtain ⟨ha1, hb1⟩ := hs1
    rw [← Nat.add_assoc] at ha1 hb1
    show rdColsL (rest.length + 1) data pos = _
    unfold rdColsL
    simp only [rdStrLossy_ok hp hd1 hwf1.1 hwf1.2, ih ha1 hb1 hwf.2]
    congr 2
    simp [List.flatMap_cons, length_write_string]
    omega

theorem rdValL_ok {data suf : List Nat} {pos : Nat} {v : Value}
    (hp : pos ≤ data.length) (hd : data.drop pos = encode_value v ++ suf)
    (hwf : valueWF v = true) :
    rdValL data pos = .ok (v, pos + (encode_value v).length) := by
  cases v with
  | int i =>
    simp only [valueWF, Bool.and_eq_true, decide_eq_true_eq] at hwf
    have hd1 : data.drop pos = 1 :: (u64be (i64ToU64 i) ++ suf) := by
      simpa [encode_value] using hd
    have hs1 := drop_step (x := [1]) hp (by simpa using hd1)
    have hl1 : ([1] : List Nat).length = 1 := rfl
    rw [hl1] at hs1
    have hsl := sliceB_ok (x := u64be (i64ToU64 i)) hs1.1 hs1.2
    rw [length_u64be] at hsl
    have hm : i64ToU64 i % 18446744073709551616 = i64ToU64 i :=
      Nat.mod_eq_of_lt (i64ToU64_lt i)
    unfold rdValL
    simp only [idx_ok hp hd1, hsl, beVal_u64be, hm,
      u64AsI64_i64ToU64 i hwf.1 hwf.2, reduceIte]
    congr 2
  | text s =>
    simp only [valueWF, strWF, Bool.and_eq_true, decide_eq_true_eq] at hwf
    have hd1 : data.drop pos = 2 :: (write_string s ++ suf) := by
      simpa [encode_value] using hd
    have hs1 := drop_step (x := [2]) hp (by simpa using hd1)
    have hl1 : ([2] : List Nat).length = 1 := rfl
    rw [hl1] at hs1
    unfold rdValL
    simp only [idx_ok hp hd1, rdStrLossy_ok hs1.1 hs1.2 hwf.1 hwf.2, reduceIte]
    simp [encode_value, write_string, length_u16be]
    omega
  | bool b =>
    have hd1 : data.drop pos = 3 :: ([if b then 1 else 0] ++ suf) := by
      simpa [encode_value] using hd
    have hs1 := drop_step (x := [3]) hp (by simpa using hd1)
    have hl1 : ([3] : List Nat).length = 1 := rfl
    rw [hl1] at hs1
    unfold rdValL
    simp only [idx_ok hp hd1, idx_ok hs1.1 (by simpa using hs1.2), reduceIte]
    cases b <;> simp [encode_value]

theorem rdValsL_ok :
    ∀ (vs : List Value) {data suf : List Nat} {pos : Nat},
    pos ≤ data.length →
    data.drop pos = vs.flatMap encode_value ++ suf →
    vs.all valueWF = true →
    rdValsL vs.length data pos =
      .ok (vs, pos + (vs.flatMap encode_value).length) := by
  intro vs
  induction vs with
  | nil => intro data suf pos hp hd hwf; simp [rdValsL]
  | cons v rest ih =>
    intro data suf pos hp hd hwf
    simp only [List.all_cons, Bool.and_eq_true] at hwf
    have hd1 : data.drop pos = encode_value v ++ (rest.flatMap encode_value ++ suf) := by
      simpa [List.flatMap_cons, List.append_assoc] using hd
    have hs1 := drop_step (x := encode_value v) hp hd1
    show rdValsL (rest.length + 1) data pos = _
    unfold rdValsL
    simp only [rdValL_ok hp hd1 hwf.1, ih hs1.1 hs1.2 hwf.2]
    congr 2
    simp [List.flatMap_cons]
    omega

theorem rdRowsL_ok :
    ∀ (rws : List (Nat × List Value)) (cc : Nat) {data suf : List Nat} {pos : Nat},
    pos ≤ data.length →
    data.drop pos =
      rws.flatMap (fun r => u64be r.1 ++ r.2.flatMap encode_value) ++ suf →
    rws.all (rowWF cc) = true →
    rdRowsL rws.length cc data pos =
      .ok (rws, pos +
        (rws.flatMap (fun r => u64be r.1 ++ r.2.flatMap encode_value)).length) := by
  intro rws
  induction rws with
  | nil => intro cc data suf pos hp hd hwf; simp [rdRowsL]
  | cons rw_ rest ih =>
    obtain ⟨rid, vals⟩ := rw_
    intro cc data suf pos hp hd hwf
    simp only [List.all_cons, Bool.and_eq_true] at hwf
    have hwf1 := hwf.1
    simp only [rowWF, Bool.and_eq_true, decide_eq_true_eq] at hwf1
    obtain ⟨⟨hrid, hcc⟩, hvals⟩ := hwf1
    subst hcc
    have hd1 : data.drop pos = u64be rid ++
        (vals.flatMap encode_value ++
          (rest.flatMap (fun r => u64be r.1 ++ r.2.flatMap encode_value) ++ suf)) := by
      simpa [List.flatMap_cons, List.append_assoc] using hd
    have hs1 := drop_step (x := u64be rid) hp hd1
    rw [length_u64be] at hs1
    obtain ⟨ha1, hb1⟩ := hs1
    have hs2 := drop_step (x := vals.flatMap encode_value) ha1 hb1
    obtain ⟨ha2, hb2⟩ := hs2
    have hsl := sliceB_ok (x := u64be rid) hp hd1
    rw [length_u64be] at hsl
    have hmr : rid % 18446744073709551616 = rid := Nat.mod_eq_of_lt hrid
    show rdRowsL (rest.length + 1) vals.length data pos = _
    unfold rdRowsL
    simp only [hsl, beVal_u64be, hmr, rdValsL_ok vals ha1 hb1 hvals,
      ih vals.length ha2 hb2 hwf.2]
    congr 2
    simp only [List.flatMap_cons, List.length_append, length_u64be]
    omega

theorem decode_response_roundtrip (r : DbResult) (hwf : resultWF r = true) :
    decode_response (encode_result r) = .ok r := by
  cases r with
  | ok => rfl
  | rows cols rws =>
    simp only [resultWF, Bool.and_eq_true, decide_eq_true_eq] at hwf
    obtain ⟨⟨⟨hcc, hcwf⟩, hrc⟩, hrwf⟩ := hwf
    have hmodc : cols.length % 256 = cols.length := Nat.mod_eq_of_lt hcc
    have hmodr : rws.length % 4294967296 = rws.length := Nat.mod_eq_of_lt hrc
    have hdata : encode_result (.rows cols rws) =
        0 :: ((cols.length % 256) :: (cols.flatMap write_string ++
          (u32be rws.length ++
            (rws.flatMap (fun q => u64be q.1 ++ q.2.flatMap encode_value) ++ [])))) := by
      simp [encode_result, encode_rows]
    rw [hmodc] at hdata
    rw [hdata]
    have h1 : (0 :: (cols.length :: (cols.flatMap write_string ++
        (u32be rws.length ++
          (rws.flatMap (fun q => u64be q.1 ++ q.2.flatMap encode_value) ++ []))))).drop 1 =
        cols.length :: (cols.flatMap write_string ++
          (u32be rws.length ++
            (rws.flatMap (fun q => u64be q.1 ++ q.2.flatMap encode_value) ++ []))) := rfl
    have hp1 : 1 ≤ (0 :: (cols.length :: (cols.flatMap write_string ++
        (u32be rws.length ++
          (rws.flatMap (fun q => u64be q.1 ++ q.2.flatMap encode_value) ++ []))))).length := by
      simp
    have h2 : (0 :: (cols.length :: (cols.flatMap write_string ++
        (u32be rws.length ++
          (rws.flatMap (fun q => u64be q.1 ++ q.2.flatMap encode_value) ++ []))))).drop 2 =
        cols.flatMap write_string ++
          (u32be rws.length ++
            (rws.flatMap (fun q => u64be q.1 ++ q.2.flatMap encode_value) ++ [])) := rfl
    have hp2 : 2 ≤ (0 :: (cols.length :: (cols.flatMap write_string ++
        (u32be rws.length ++
          (rws.flatMap (fun q => u64be q.1 ++ q.2.flatMap encode_value) ++ []))))).length := by
      simp
    have hs3 := drop_step (x := cols.flatMap write_string) hp2 h2
    obtain ⟨ha3, hb3⟩ := hs3
    have hs4 := drop_step (x := u32be rws.length) ha3 hb3
    rw [length_u32be] at hs4
    obtain ⟨ha4, hb4⟩ := hs4
    simp only [decode_response]
    rw [if_pos trivial, if_neg (by simp)]
    simp only [idx_ok hp1 h1, rdColsL_ok cols hp2 h2 hcwf,
      rdU32L_ok ha3 hb3, hmodr, rdRowsL_ok rws cols.length ha4 hb4 hrwf]

def exceptEq {ε α : Type} [DecidableEq ε] [DecidableEq α] :
    (a b : Except ε α) → Decidable (a = b)
  | .ok x, .ok y =>
    match decEq x y with
    | .isTrue h => .isTrue (congrArg Except.ok h)
    | .isFalse h => .isFalse (fun hc => h (Except.ok.inj hc))
  | .error e, .error f =>
    match decEq e f with
    | .isTrue h => .isTrue (congrArg Except.error h)
    | .isFalse h => .isFalse (fun hc => h (Except.error.inj hc))
  | .ok _, .error _ => .isFalse (fun hc => Except.noConfusion hc)
  | .error _, .ok _ => .isFalse (fun hc => Except.noConfusion hc)

instance {ε α : Type} [DecidableEq ε] [DecidableEq α] : DecidableEq (Except ε α) :=
  exceptEq

/- Every failure of the command decoder is a protocol error carrying a
   message: the command path reads only through the bounds-checked
   Cursor.take and therefore cannot reach a panic outcome. -/

theorem take_errShape {c : Cursor} {n : Nat} {e : DErr}
    (h : c.take n = .error e) : ∃ m, e = .protocol m := by
  unfold Cursor.take at h
  split at h
  · exact ⟨_, (Except.error.inj h).symm⟩
  · exact Except.noConfusion h

theorem u8_errShape {c : Cursor} {e : DErr}
    (h : c.u8 = .error e) : ∃ m, e = .protocol m := by
  unfold Cursor.u8 at h
  split at h
  · rename_i e1 heq
    cases h
    exact take_errShape heq
  · exact Except.noConfusion h

theorem u16_errShape {c : Cursor} {e : DErr}
    (h : c.u16 = .error e) : ∃ m, e = .protocol m := by
  unfold Cursor.u16 at h
  split at h
  · rename_i e1 heq
    cases h
    exact take_errShape heq
  · exact Except.noConfusion h

theorem u64_errShape {c : Cursor} {e : DErr}
    (h : c.u64 = .error e) : ∃ m, e = .protocol m := by
  unfold Cursor.u64 at h
  split at h
  · rename_i e1 heq
    cases h
    exact take_errShape heq
  · exact Except.noConfusion h

theorem string_errShape {c : Cursor} {e : DErr}
    (h : c.string = .error e) : ∃ m, e = .protocol m := by
  unfold Cursor.string at h
  repeat' split at h
  all_goals
    first
      | exact Except.noConfusion h
      | (cases h
         first
           | exact ⟨_, rfl⟩
           | exact take_errShape (by assumption)
           | exact u16_errShape (by assumption))

theorem parse_value_errShape {c : Cursor} {e : DErr}
    (h : parse_value c = .error e) : ∃ m, e = .protocol m := by
  unfold parse_value at h
  repeat' split at h
  all_goals
    first
      | exact Except.noConfusion h
      | (cases h
         first
           | exact ⟨_, rfl⟩
           | exact u8_errShape (by assumption)
           | exact u64_errShape (by assumption)
           | exact string_errShape (by assumption))

theorem parseColsN_errShape :
    ∀ (n : Nat) {c : Cursor} {e : DErr},
    parseColsN n c = .error e → ∃ m, e = .protocol m := by
  intro n
  induction n with
  | zero => intro c e h; exact Except.noConfusion h
  | succ n ih =>
    intro c e h
    unfold parseColsN at h
    repeat' split at h
    all_goals
      first
        | exact Except.noConfusion h
        | (cases h
           first
             | exact ⟨_, rfl⟩
             | exact string_errShape (by assumption)
             | exact u8_errShape (by assumption)
             | exact ih (by assumption))

theorem parseValsN_errShape :
    ∀ (n : Nat) {c : Cursor} {e : DErr},
    parseValsN n c = .error e → ∃ m, e = .protocol m := by
  intro n
  induction n with
  | zero => intro c e h; exact Except.noConfusion h
  | succ n ih =>
    intro c e h
    unfold parseValsN at h
    repeat' split at h
    all_goals
      first
        | exact Except.noConfusion h
        | (cases h
           first
             | exact ⟨_, rfl⟩
             | exact parse_value_errShape (by assumption)
             | exact ih (by assumption))

theorem parseUpdsN_errShape :
    ∀ (n : Nat) {c : Cursor} {e : DErr},
    parseUpdsN n c = .error e → ∃ m, e = .protocol m := by
  intro n
  induction n with
  | zero => intro c e h; exact Except.noConfusion h
  | succ n ih =>
    intro c e h
    unfold parseUpdsN at h
    repeat' split at h
    all_goals
      first
        | exact Except.noConfusion h
        | (cases h
           first
             | exact ⟨_, rfl⟩
             | exact string_errShape (by assumption)
             | exact parse_value_errShape (by assumption)
             | exact ih (by assumption))

theorem parse_command_errShape {buf : List Nat} {e : DErr}
    (h : parse_command buf = .error e) : ∃ m, e = .protocol m := by
  unfold parse_command at h
  repeat' split at h
  all_goals
    first
      | exact Except.noConfusion h
      | (cases h
         first
           | exact ⟨_, rfl⟩
           | exact u8_errShape (by assumption)
           | exact u64_errShape (by assumption)
           | exact string_errShape (by assumption)
           | exact parseColsN_errShape _ (by assumption)
           | exact parseValsN_errShape _ (by assumption)
           | exact parseUpdsN_errShape _ (by assumption))

/- Concrete inputs used by the claim theorems. -/

def cexCmd : DbCommand := .insertRow [] (List.replicate 256 (Value.bool true))

def bigStr : Str := List.replicate 65536 97

def wCmd : DbCommand :=
  .createTable (strBytes ("users"))
    [(strBytes ("name"), .text), (strBytes ("age"), .int)]

def wRes : DbResult :=
  .rows [strBytes ("name"), strBytes ("age")]
    [(1, [.text (strBytes ("Ann")), .int 30]), (2, [.text (strBytes ("Bo")), .int 25])]

/-- C1: for every well-formed command value (string byte lengths below 65536,
element counts below 256, ids and ints within 64 bits, valid UTF-8 strings)
decoding the encoding yields the command back, and likewise for every
well-formed result value (additionally: row count below 2^32 and one value
per column in every row).  This is the amended round-trip property: the
unrestricted claim fails, see the counterexample. -/
theorem c1_round_trip : ∀ (c : DbCommand) (r : DbResult),
    (cmdWF c = true → parse_command (encode_command c) = .ok c) ∧
    (resultWF r = true → decode_response (encode_result r) = .ok r) :=
  fun c r => ⟨parse_command_roundtrip c, decode_response_roundtrip r⟩

/-- C1 witness: the round trip evaluated on a concrete createTable command
and a concrete two-row result. -/
theorem c1_witness :
    parse_command (encode_command wCmd) = .ok wCmd ∧
    decode_response (encode_result wRes) = .ok wRes :=
  ⟨(c1_round_trip wCmd wRes).1 (by decide),
   (c1_round_trip wCmd wRes).2 (by decide)⟩

/-- C1 counterexample: an insertRow command with 256 values does not survive
the round trip, because the value count is written as a single byte
(256 mod 256 = 0), so decoding returns an insertRow with no values. -/
theorem parse_insert_trailing (t : Str) (suf : List Nat)
    (h1 : t.length < 65536) (h2 : validUtf8 t = true) :
    parse_command (2 :: (write_string t ++ ([0] ++ suf))) = .ok (.insertRow t []) := by
  have h0 : (2 :: (write_string t ++ ([0] ++ suf))).drop 0 =
      2 :: (write_string t ++ ([0] ++ suf)) := List.drop_zero _
  have hd1 : (2 :: (write_string t ++ ([0] ++ suf))).drop 1 =
      write_string t ++ ([0] ++ suf) := rfl
  have hp1 : 1 ≤ (2 :: (write_string t ++ ([0] ++ suf))).length := by
    simp
  have hs1 := drop_step (x := write_string t) hp1 hd1
  rw [length_write_string] at hs1
  obtain ⟨ha1, hb1⟩ := hs1
  rw [← Nat.add_assoc] at ha1 hb1
  unfold parse_command
  simp only [u8_ok (Nat.zero_le _) h0, string_ok hp1 hd1 h1 h2,
    u8_ok ha1 (by simpa using hb1)]
  simp [parseValsN]

/-- C1 counterexample: an insertRow command with 256 values does not survive
the round trip, because the value count is written as a single byte
(256 mod 256 = 0), so decoding returns an insertRow with no values. -/
theorem c1_counterexample :
    parse_command (encode_command cexCmd) ≠ .ok cexCmd := by
  have henc : encode_command cexCmd =
      2 :: (write_string [] ++ ([0] ++
        (List.replicate 256 (Value.bool true)).flatMap encode_value)) := by
    show 2 :: (write_string [] ++
        [(List.replicate 256 (Value.bool true)).length % 256] ++
        (List.replicate 256 (Value.bool true)).flatMap encode_value) = _
    rw [List.length_replicate]
    rw [show ((256 : Nat) % 256) = 0 from rfl]
    rw [List.append_assoc]
  rw [henc, parse_insert_trailing [] _ (by decide) (by decide)]
  intro hc
  have hinj := Except.ok.inj hc
  unfold cexCmd at hinj
  injection hinj with h1 h2
  have h3 := congrArg List.length h2
  simp only [List.length_nil, List.length_replicate] at h3
  exact absurd h3 (by decide)

/-- C2 (amended): command-frame decoding is total and never panics — every
failure of parse_command is a protocol error carrying a message, because
every read goes through the bounds-checked Cursor.take.  (Result-frame
decoding does not share this property; see the counterexample.) -/
theorem c2_command_decode_total : ∀ buf : List Nat,
    (∃ c, parse_command buf = .ok c) ∨
    (∃ m, parse_command buf = .error (.protocol m)) := by
  intro buf
  cases h : parse_command buf with
  | ok c => exact .inl ⟨c, rfl⟩
  | error e =>
    obtain ⟨m, hm⟩ := parse_command_errShape h
    exact .inr ⟨m, by rw [hm]⟩

/-- C2 counterexample: decode_response reads result frames with unchecked
indexing; the truncated error frame [0x01] makes it read data[1] and data[2]
out of bounds — a Rust panic, not a protocol error. -/
theorem c2_counterexample : decode_response [1] = .error .panic := by decide

/-- C3 (amended): encoding a string never fails and never drops bytes, but a
string of 65536 bytes or more has its u16 length prefix silently wrapped to
length mod 65536 (a corrupt frame), rather than being rejected as an error. -/
theorem c3_truncated_prefix : ∀ s : Str, 65536 ≤ s.length →
    write_string s = [s.length / 256 % 256, s.length % 256] ++ s ∧
    beVal ((write_string s).take 2) = s.length % 65536 ∧
    s.length % 65536 < s.length := by
  intro s h
  refine ⟨rfl, ?_, by omega⟩
  show beVal ((u16be s.length ++ s).take 2) = _
  rw [show (u16be s.length ++ s).take 2 = u16be s.length from by simp [u16be]]
  exact beVal_u16be _

/-- C3 witness: the amended statement evaluated on a concrete string of
65536 bytes, whose emitted length prefix is 0. -/
theorem c3_witness :
    65536 ≤ bigStr.length ∧
    (write_string bigStr = [bigStr.length / 256 % 256, bigStr.length % 256] ++ bigStr ∧
     beVal ((write_string bigStr).take 2) = bigStr.length % 65536 ∧
     bigStr.length % 65536 < bigStr.length) :=
  ⟨by simp only [bigStr, List.length_replicate]; omega,
   c3_truncated_prefix bigStr (by simp only [bigStr, List.length_replicate]; omega)⟩

/-- C3 counterexample: encoding a selectAll whose table name has 65536 bytes
does not reject the string — it produces a frame whose length prefix is 0
followed by all 65536 bytes, and parsing that frame yields a different
command (the empty table name), i.e. the encoder truncated the prefix
instead of failing. -/
theorem parse_selectAll_trailing (t : Str) (suf : List Nat)
    (h1 : t.length < 65536) (h2 : validUtf8 t = true) :
    parse_command (4 :: (write_string t ++ suf)) = .ok (.selectAll t) := by
  have h0 : (4 :: (write_string t ++ suf)).drop 0 =
      4 :: (write_string t ++ suf) := List.drop_zero _
  have hd1 : (4 :: (write_string t ++ suf)).drop 1 = write_string t ++ suf := rfl
  have hp1 : 1 ≤ (4 :: (write_string t ++ suf)).length := by
    simp
  unfold parse_command
  simp only [u8_ok (Nat.zero_le _) h0, string_ok hp1 hd1 h1 h2]
  simp

/-- C3 counterexample: encoding a selectAll whose table name has 65536 bytes
does not reject the string — it produces a frame whose length prefix is 0
followed by all 65536 bytes, and parsing that frame yields a different
command (the empty table name), i.e. the encoder truncated the prefix
instead of failing. -/
theorem c3_counterexample :
    encode_command (.selectAll bigStr) = [4, 0, 0] ++ bigStr ∧
    parse_command (encode_command (.selectAll bigStr)) = .ok (.selectAll []) := by
  have hlen : bigStr.length = 65536 := by
    simp only [bigStr, List.length_replicate]
  have henc : encode_command (.selectAll bigStr) = 4 :: (u16be 65536 ++ bigStr) := by
    show 4 :: write_string bigStr = _
    rw [write_string, hlen]
  constructor
  · rw [henc]
    rw [show u16be 65536 = [0, 0] from rfl]
    rfl
  · rw [henc]
    rw [show u16be 65536 = write_string [] from rfl]
    exact parse_selectAll_trailing [] bigStr (by decide) (by decide)

/- Store invariants (C4): association-list lemmas for the HashMap model. -/

theorem getA_mem {α : Type} : ∀ {l : List (Str × α)} {k : Str} {v : α},
    getA l k = some v → (k, v) ∈ l := by
  intro l
  induction l with
  | nil => intro k v h; exact Option.noConfusion h
  | cons p rest ih =>
    intro k v h
    obtain ⟨k1, v1⟩ := p
    unfold getA at h
    split at h
    · rename_i heq
      cases h
      rw [heq]
      exact List.mem_cons_self _ _
    · exact List.mem_cons_of_mem _ (ih h)

theorem setA_mem {α : Type} : ∀ {l : List (Str × α)} {k : Str} {v : α} {p : Str × α},
    p ∈ setA l k v → p = (k, v) ∨ p ∈ l := by
  intro l
  induction l with
  | nil =>
    intro k v p h
    simp [setA] at h
    exact .inl h
  | cons q rest ih =>
    intro k v p h
    obtain ⟨k1, v1⟩ := q
    unfold setA at h
    split at h
    · rcases List.mem_cons.1 h with h1 | h1
      · exact .inl h1
      · exact .inr (List.mem_cons_of_mem _ h1)
    · rcases List.mem_cons.1 h with h1 | h1
      · exact .inr (h1 ▸ List.mem_cons_self _ _)
      · rcases ih h1 with h2 | h2
        · exact .inl h2
        · exact .inr (List.mem_cons_of_mem _ h2)

theorem setRowVals_keys : ∀ (rows : List (Nat × List Value)) (k : Nat) (r : List Value),
    (setRowVals rows k r).map Prod.fst = rows.map Prod.fst := by
  intro rows
  induction rows with
  | nil => intro k r; rfl
  | cons q rest ih =>
    intro k r
    obtain ⟨k1, v1⟩ := q
    unfold setRowVals
    split
    · simp
    · simp [ih]

def tableInv (t : Table) : Prop :=
  List.Pairwise (· < ·) (t.rows.map Prod.fst) ∧
  ∀ k ∈ t.rows.map Prod.fst, k < t.next_row_id

def dbInv (db : Database) : Prop := ∀ p ∈ db.tables, tableInv p.2

theorem exec_preserves_inv (cmd : DbCommand) (db : Database) (h : dbInv db) :
    dbInv (exec cmd db).2 := by
  cases cmd with
  | getTables => exact h
  | selectAll t =>
    cases hg : getA db.tables t with
    | none => simp only [exec, hg]; exact h
    | some tbl => simp only [exec, hg]; exact h
  | createTable t cols =>
    cases hg : getA db.tables t with
    | some tbl => simp only [exec, hg]; exact h
    | none =>
      simp only [exec, hg]
      intro p hp
      rcases setA_mem hp with hpe | hpm
      · rw [hpe]
        exact ⟨by simp, by simp⟩
      · exact h p hpm
  | insertRow t vs =>
    cases hg : getA db.tables t with
    | none => simp only [exec, hg]; exact h
    | some tbl =>
      simp only [exec, hg]
      by_cases hlen : vs.length ≠ tbl.columns.length
      · rw [if_pos hlen]; exact h
      · rw [if_neg hlen]
        cases hct : checkTypes vs tbl.columns with
        | some nm => simp only [hct]; exact h
        | none =>
          simp only [hct]
          intro p hp
          rcases setA_mem hp with hpe | hpm
          · rw [hpe]
            obtain ⟨hpw, hbound⟩ := h (t, tbl) (getA_mem hg)
            constructor
            · simp only [List.map_append]
              rw [List.pairwise_append]
              refine ⟨hpw, by simp, ?_⟩
              intro a ha b hb
              simp only [List.map_cons, List.map_nil, List.mem_singleton] at hb
              rw [hb]
              exact hbound a ha
            · intro k hk
              simp only [List.map_append, List.mem_append, List.map_cons,
                List.map_nil, List.mem_singleton] at hk
              rcases hk with hk | hk
              · exact Nat.lt_succ_of_lt (hbound k hk)
              · rw [hk]
                exact Nat.lt_succ_self _
          · exact h p hpm
  | updateRow t rid us =>
    cases hg : getA db.tables t with
    | none => simp only [exec, hg]; exact h
    | some tbl =>
      cases hl : lookupRow tbl.rows rid with
      | none => simp only [exec, hg, hl]; exact h
      | some row =>
        simp only [exec, hg, hl]
        intro p hp
        rcases setA_mem hp with hpe | hpm
        · rw [hpe]
          obtain ⟨hpw, hbound⟩ := h (t, tbl) (getA_mem hg)
          constructor
          · show List.Pairwise _ ((setRowVals tbl.rows rid _).map Prod.fst)
            rw [setRowVals_keys]
            exact hpw
          · intro k hk
            rw [setRowVals_keys] at hk
            exact hbound k hk
        · exact h p hpm

theorem execList_inv : ∀ (cmds : List DbCommand) (db : Database),
    dbInv db → dbInv (execList cmds db) := by
  intro cmds
  induction cmds with
  | nil => intro db h; exact h
  | cons c rest ih =>
    intro db h
    show dbInv (execList rest (exec c db).2)
    exact ih _ (exec_preserves_inv c db h)

/-- C4: starting from the empty store, after any sequence of executed
commands every table's row ids (in assignment order, which is the stored
order — rows are only ever appended with the fresh id next_row_id) are
strictly increasing, hence pairwise distinct and never reused, and
next_row_id is strictly greater than every row id present in the table. -/
theorem c4_row_id_invariant : ∀ (cmds : List DbCommand),
    ∀ p ∈ (execList cmds emptyDb).tables,
      List.Pairwise (· < ·) (p.2.rows.map Prod.fst) ∧
      ∀ id ∈ p.2.rows.map Prod.fst, id < p.2.next_row_id := by
  intro cmds p hp
  exact execList_inv cmds emptyDb (by intro q hq; exact absurd hq (by simp [emptyDb])) p hp

def wCmds : List DbCommand :=
  [.createTable (strBytes ("users")) [(strBytes ("name"), .text)],
   .insertRow (strBytes ("users")) [.text (strBytes ("Ann"))],
   .insertRow (strBytes ("users")) [.text (strBytes ("Bo"))]]

def wTable : Table :=
  ⟨strBytes ("users"), [⟨strBytes ("name"), .text⟩],
   [(1, [.text (strBytes ("Ann"))]), (2, [.text (strBytes ("Bo"))])], 3⟩

/-- C4 witness: the invariant instantiated on a concrete run that creates a
table and inserts two rows, yielding ids 1 and 2 with next_row_id 3. -/
theorem c4_witness :
    ((strBytes ("users"), wTable) ∈ (execList wCmds emptyDb).tables) ∧
    (List.Pairwise (· < ·) (wTable.rows.map Prod.fst) ∧
     ∀ id ∈ wTable.rows.map Prod.fst, id < wTable.next_row_id) :=
  ⟨by decide, c4_row_id_invariant wCmds (strBytes ("users"), wTable) (by decide)⟩

/- Characterization of the left-to-right insert type check: the reported
column is the first (least-index) mismatch. -/
theorem checkTypes_spec : ∀ (vs : List Value) (cs : List Column) (nm : Str),
    checkTypes vs cs = some nm →
    ∃ i, ∃ hi : i < cs.length, ∃ hv : i < vs.length,
      nm = (cs.get ⟨i, hi⟩).name ∧
      value_matches_type (vs.get ⟨i, hv⟩) ((cs.get ⟨i, hi⟩).col_type) = false ∧
      ∀ j (hj1 : j < vs.length) (hj2 : j < cs.length), j < i →
        value_matches_type (vs.get ⟨j, hj1⟩) ((cs.get ⟨j, hj2⟩).col_type) = true := by
  intro vs
  induction vs with
  | nil => intro cs nm h; exact Option.noConfusion h
  | cons v vs ih =>
    intro cs nm h
    cases cs with
    | nil => exact Option.noConfusion h
    | cons c cs =>
      unfold checkTypes at h
      by_cases hm : value_matches_type v c.col_type = true
      · rw [if_pos hm] at h
        obtain ⟨i, hi, hv, hnm, hmis, hpref⟩ := ih cs nm h
        refine ⟨i + 1, by simp; omega, by simp; omega, hnm, hmis, ?_⟩
        intro j hj1 hj2 hji
        cases j with
        | zero => exact hm
        | succ j =>
          exact hpref j (by simpa using hj1) (by simpa using hj2) (by omega)
      · rw [if_neg hm] at h
        cases h
        refine ⟨0, by simp, by simp, rfl, by simpa using hm, ?_⟩
        intro j hj1 hj2 hji
        exact absurd hji (Nat.not_lt_zero j)

/-- C5: if insertRow reaches the type check (table present, value count
matches the column count) and some value's tag disagrees with its column's
declared type, execution fails with the TypeMismatch message naming the
column of the first mismatch in left-to-right order, and the store —
including the table's rows and next_row_id — is completely unchanged. -/
theorem c5_insert_type_mismatch :
    ∀ (db : Database) (t : Str) (tbl : Table) (vs : List Value) (nm : Str),
    getA db.tables t = some tbl →
    vs.length = tbl.columns.length →
    checkTypes vs tbl.columns = some nm →
    exec (.insertRow t vs) db = (.error (msgTypePre ++ nm), db) ∧
    ∃ i, ∃ hi : i < tbl.columns.length, ∃ hv : i < vs.length,
      nm = (tbl.columns.get ⟨i, hi⟩).name ∧
      value_matches_type (vs.get ⟨i, hv⟩) ((tbl.columns.get ⟨i, hi⟩).col_type) = false ∧
      ∀ j (hj1 : j < vs.length) (hj2 : j < tbl.columns.length), j < i →
        value_matches_type (vs.get ⟨j, hj1⟩) ((tbl.columns.get ⟨j, hj2⟩).col_type) = true := by
  intro db t tbl vs nm hg hlen hct
  constructor
  · simp only [exec, hg, hct]
    rw [if_neg (by omega)]
  · exact checkTypes_spec vs tbl.columns nm hct

def tblC6 : Table :=
  ⟨strBytes ("t"), [⟨strBytes ("a"), .int⟩, ⟨strBytes ("b"), .int⟩],
   [(1, [.int 1, .int 2])], 2⟩

def dbC6 : Database := ⟨[(strBytes ("t"), tblC6)]⟩

/-- C5 witness: inserting [Int 5, Int 30] into a (text, int) table fails
naming the first column and leaves the store unchanged. -/
theorem c5_witness :
    getA (⟨[(strBytes ("users"), wTable)]⟩ : Database).tables (strBytes ("users")) =
      some wTable ∧
    exec (.insertRow (strBytes ("users")) [.int 5]) ⟨[(strBytes ("users"), wTable)]⟩ =
      (.error (msgTypePre ++ strBytes ("name")), ⟨[(strBytes ("users"), wTable)]⟩) :=
  ⟨by decide,
   (c5_insert_type_mismatch ⟨[(strBytes ("users"), wTable)]⟩ (strBytes ("users"))
     wTable [.int 5] (strBytes ("name")) (by decide) (by decide) (by decide)).1⟩

/-- C6: updateRow applies updates one at a time in the order of the supplied
update list; in this concrete run the second update of the same request fails
its type check, yet the first update is already applied to the row in the
store — partial application, not all-or-nothing. -/
theorem c6_partial_update :
    (exec (.updateRow (strBytes ("t")) 1
        [(strBytes ("a"), .int 9), (strBytes ("b"), .text (strBytes ("x")))]) dbC6).1 =
      .error (msgTypePre ++ strBytes ("b")) ∧
    lookupRowInDb
      (exec (.updateRow (strBytes ("t")) 1
        [(strBytes ("a"), .int 9), (strBytes ("b"), .text (strBytes ("x")))]) dbC6).2
      (strBytes ("t")) 1 = some [.int 9, .int 2] ∧
    lookupRowInDb dbC6 (strBytes ("t")) 1 = some [.int 1, .int 2] := by decide

/-- C7: the dispatch loop produces exactly one reply per submitted command
buffer and keeps processing subsequent requests, and whenever decoding a
buffer fails the reply is the encoded protocol-error result (the message
prefixed with "Protocol error: ") while the store is left untouched. -/
theorem c7_dispatch :
    (∀ (bufs : List (List Nat)) (db : Database),
      (runLoop bufs db).1.length = bufs.length) ∧
    (∀ (buf : List Nat) (db : Database) (m : Str),
      parse_command buf = .error (.protocol m) →
      handle buf db = (encode_error (strBytes ("Protocol error: ") ++ m), db)) := by
  constructor
  · intro bufs
    induction bufs with
    | nil => intro db; rfl
    | cons d ds ih =>
      intro db
      show ((handle d db).1 :: (runLoop ds (handle d db).2).1).length = ds.length + 1
      simp [ih]
  · intro buf db m hp
    simp only [handle, hp]
    rfl

/-- C7 witness: an unknown opcode still gets exactly one reply, and a
truncated (empty) buffer is answered with the encoded protocol error while
the store stays empty. -/
theorem c7_witness :
    (runLoop [[255]] emptyDb).1.length = [[255]].length ∧
    handle [] emptyDb =
      (encode_error (strBytes ("Protocol error: ") ++
        strBytes ("Unexpected end of buffer")), emptyDb) :=
  ⟨c7_dispatch.1 [[255]] emptyDb, c7_dispatch.2 [] emptyDb _ (by decide)⟩

instance : IsTotal (Nat × List Value) keyLe := ⟨fun a b => Nat.le_total a.1 b.1⟩

instance : IsTrans (Nat × List Value) keyLe := ⟨fun _ _ _ => Nat.le_trans⟩

/-- C8: selectAll on an absent table name fails with the NotFound error and
changes nothing; on a present table it returns the table's column names in
declared order together with all of the table's rows (a permutation of the
stored row set) sorted ascending by row id. -/
theorem c8_select_all :
    ∀ (db : Database) (t : Str),
    (getA db.tables t = none →
      exec (.selectAll t) db = (.error msgTableNotFound, db)) ∧
    (∀ tbl, getA db.tables t = some tbl →
      exec (.selectAll t) db =
        (.ok (.rows (tbl.columns.map Column.name) (sortByKey tbl.rows)), db) ∧
      List.Pairwise (· ≤ ·) ((sortByKey tbl.rows).map Prod.fst) ∧
      (sortByKey tbl.rows).Perm tbl.rows) := by
  intro db t
  constructor
  · intro hg
    simp only [exec, hg]
  · intro tbl hg
    refine ⟨by simp only [exec, hg], ?_, ?_⟩
    · rw [List.pairwise_map]
      exact List.sorted_insertionSort keyLe tbl.rows
    · exact List.perm_insertionSort keyLe tbl.rows

/-- C8 witness: selectAll on a missing name fails NotFound; on the present
table it returns the declared column names and the sorted rows. -/
theorem c8_witness :
    exec (.selectAll (strBytes ("missing"))) dbC6 = (.error msgTableNotFound, dbC6) ∧
    (exec (.selectAll (strBytes ("t"))) dbC6 =
      (.ok (.rows (tblC6.columns.map Column.name) (sortByKey tblC6.rows)), dbC6) ∧
     List.Pairwise (· ≤ ·) ((sortByKey tblC6.rows).map Prod.fst) ∧
     (sortByKey tblC6.rows).Perm tblC6.rows) :=
  ⟨(c8_select_all dbC6 (strBytes ("missing"))).1 (by decide),
   (c8_select_all dbC6 (strBytes ("t"))).2 tblC6 (by decide)⟩

theorem range'_app (s m n : Nat) :
    List.range' s m ++ List.range' (s + m) n = List.range' s (m + n) := by
  have h := List.range'_append s m n 1
  rw [Nat.one_mul] at h
  rw [Nat.add_comm n m] at h
  exact h

def schemaPairs (db : Database) : List (Str × Column) :=
  db.tables.flatMap (fun p => p.2.columns.map (fun c => (p.1, c)))

def schemaRow (q : Str × Column) : List Value :=
  [Value.text q.1, Value.text q.2.name, Value.text (renderType q.2.col_type)]

theorem gtColsRows_spec : ∀ (nm : Str) (cols : List Column) (id : Nat),
    (gtColsRows nm cols id).map Prod.fst = List.range' id cols.length ∧
    (gtColsRows nm cols id).map Prod.snd =
      (cols.map (fun c => (nm, c))).map schemaRow := by
  intro nm cols
  induction cols with
  | nil => intro id; exact ⟨rfl, rfl⟩
  | cons c cs ih =>
    intro id
    constructor
    · show id :: (gtColsRows nm cs (id + 1)).map Prod.fst = _
      rw [(ih (id + 1)).1]
      rfl
    · show schemaRow (nm, c) :: (gtColsRows nm cs (id + 1)).map Prod.snd = _
      rw [(ih (id + 1)).2]
      rfl

theorem gtRows_spec : ∀ (ts : List (Str × Table)) (id : Nat),
    (gtRows ts id).map Prod.fst =
      List.range' id (ts.flatMap (fun p => p.2.columns.map (fun c => (p.1, c)))).length ∧
    (gtRows ts id).map Prod.snd =
      (ts.flatMap (fun p => p.2.columns.map (fun c => (p.1, c)))).map schemaRow := by
  intro ts
  induction ts with
  | nil => intro id; exact ⟨rfl, rfl⟩
  | cons p rest ih =>
    obtain ⟨nm, tb⟩ := p
    intro id
    constructor
    · show ((gtColsRows nm tb.columns id) ++ gtRows rest (id + tb.columns.length)).map Prod.fst = _
      rw [List.map_append, (gtColsRows_spec nm tb.columns id).1, (ih (id + tb.columns.length)).1]
      rw [show (((nm, tb) :: rest).flatMap (fun p => p.2.columns.map (fun c => (p.1, c)))) =
        tb.columns.map (fun c => (nm, c)) ++
          rest.flatMap (fun p => p.2.columns.map (fun c => (p.1, c))) from rfl]
      rw [List.length_append, List.length_map]
      exact range'_app id tb.columns.length _
    · show ((gtColsRows nm tb.columns id) ++ gtRows rest (id + tb.columns.length)).map Prod.snd = _
      rw [List.map_append, (gtColsRows_spec nm tb.columns id).2, (ih (id + tb.columns.length)).2]
      rw [show (((nm, tb) :: rest).flatMap (fun p => p.2.columns.map (fun c => (p.1, c)))) =
        tb.columns.map (fun c => (nm, c)) ++
          rest.flatMap (fun p => p.2.columns.map (fun c => (p.1, c))) from rfl]
      rw [List.map_append]

/-- C9: for every store, get_tables returns a row set with exactly the three
columns table_name, column_name, column_type; its rows carry ids assigned
sequentially starting at 1 (in table-then-column iteration order of the
store's table map) and one row per (table, column) pair, each rendering the
table name, the column name, and the lowercase type name ("int", "text",
"bool") as text values. -/
theorem c9_get_tables : ∀ db : Database,
    ∃ rws, get_tables db = .ok (.rows
      [strBytes ("table_name"), strBytes ("column_name"), strBytes ("column_type")] rws) ∧
    rws.map Prod.fst = List.range' 1 (schemaPairs db).length ∧
    rws.map Prod.snd = (schemaPairs db).map schemaRow :=
  fun db => ⟨gtRows db.tables 1, rfl, (gtRows_spec db.tables 1).1,
    (gtRows_spec db.tables 1).2⟩

theorem firstIdx_spec : ∀ (cols : List Column) (nm : Str) (i : Nat),
    firstIdx cols nm = some i →
    ∃ hi : i < cols.length, (cols.get ⟨i, hi⟩).name = nm ∧
      ∀ j (hj : j < cols.length), j < i → (cols.get ⟨j, hj⟩).name ≠ nm := by
  intro cols
  induction cols with
  | nil => intro nm i h; exact Option.noConfusion h
  | cons c cs ih =>
    intro nm i h
    unfold firstIdx at h
    by_cases hc : c.name = nm
    · rw [if_pos hc] at h
      cases h
      refine ⟨by simp, hc, ?_⟩
      intro j hj hji
      exact absurd hji (Nat.not_lt_zero j)
    · rw [if_neg hc] at h
      cases hf : firstIdx cs nm with
      | none => rw [hf] at h; exact Option.noConfusion h
      | some i0 =>
        rw [hf] at h
        simp only [Option.map_some'] at h
        cases h
        obtain ⟨hi0, hn, hpref⟩ := ih nm i0 hf
        refine ⟨by simpa using Nat.succ_lt_succ hi0, hn, ?_⟩
        intro j hj hji
        cases j with
        | zero => exact hc
        | succ j =>
          exact hpref j (by simpa using hj) (by omega)

theorem getA_setA {α : Type} : ∀ (l : List (Str × α)) (k : Str) (v : α),
    getA (setA l k v) k = some v := by
  intro l
  induction l with
  | nil => intro k v; simp [setA, getA]
  | cons p rest ih =>
    intro k v
    obtain ⟨k1, v1⟩ := p
    unfold setA
    by_cases hk : k1 = k
    · rw [if_pos hk]
      simp [getA]
    · rw [if_neg hk]
      unfold getA
      rw [if_neg hk]
      exact ih k v

theorem lookupRow_setRowVals :
    ∀ (rows : List (Nat × List Value)) (k : Nat) (r x : List Value),
    lookupRow rows k = some r → lookupRow (setRowVals rows k x) k = some x := by
  intro rows
  induction rows with
  | nil => intro k r x h; exact Option.noConfusion h
  | cons p rest ih =>
    intro k r x h
    obtain ⟨k1, v1⟩ := p
    unfold setRowVals
    by_cases hk : k1 = k
    · rw [if_pos hk]
      unfold lookupRow
      rw [if_pos hk]
    · rw [if_neg hk]
      unfold lookupRow
      rw [if_neg hk]
      unfold lookupRow at h
      rw [if_neg hk] at h
      exact ih k r x h

/-- C10: when a table has duplicate column names, an updateRow naming the
duplicated column resolves to the first (leftmost) declared column bearing
that name — firstIdx returns the least matching index — so only that
column's value is replaced (row.set at that index) and its declared type is
the one the replacement value is checked against, for every update naming
the column; a mismatch against that first column's type fails TypeMismatch
with the row unchanged even if a later duplicate column would accept it. -/
theorem c10_first_column :
    ∀ (db : Database) (t : Str) (tbl : Table) (rid : Nat) (row : List Value)
      (nm : Str) (v : Value) (i : Nat),
    getA db.tables t = some tbl →
    lookupRow tbl.rows rid = some row →
    firstIdx tbl.columns nm = some i →
    (∃ hi : i < tbl.columns.length, (tbl.columns.get ⟨i, hi⟩).name = nm ∧
      ∀ j (hj : j < tbl.columns.length), j < i → (tbl.columns.get ⟨j, hj⟩).name ≠ nm) ∧
    (value_matches_type v (tbl.columns.getD i dfltCol).col_type = true →
      (exec (.updateRow t rid [(nm, v)]) db).1 = .ok .ok ∧
      lookupRowInDb (exec (.updateRow t rid [(nm, v)]) db).2 t rid = some (row.set i v)) ∧
    (value_matches_type v (tbl.columns.getD i dfltCol).col_type = false →
      (exec (.updateRow t rid [(nm, v)]) db).1 = .error (msgTypePre ++ nm) ∧
      lookupRowInDb (exec (.updateRow t rid [(nm, v)]) db).2 t rid = some row) := by
  intro db t tbl rid row nm v i hg hlk hf
  have happT : value_matches_type v (tbl.columns.getD i dfltCol).col_type = true →
      applyUpdates tbl.columns row [(nm, v)] = (.ok .ok, row.set i v) := by
    intro hv
    unfold applyUpdates
    rw [hf]
    show (if value_matches_type v (tbl.columns.getD i dfltCol).col_type = true then
        applyUpdates tbl.columns (row.set i v) [] else (.error (msgTypePre ++ nm), row)) = _
    rw [if_pos hv]
    rfl
  have happF : value_matches_type v (tbl.columns.getD i dfltCol).col_type = false →
      applyUpdates tbl.columns row [(nm, v)] = (.error (msgTypePre ++ nm), row) := by
    intro hv
    unfold applyUpdates
    rw [hf]
    show (if value_matches_type v (tbl.columns.getD i dfltCol).col_type = true then
        applyUpdates tbl.columns (row.set i v) [] else (.error (msgTypePre ++ nm), row)) = _
    rw [if_neg (by rw [hv]; exact Bool.false_ne_true)]
  refine ⟨firstIdx_spec tbl.columns nm i hf, ?_, ?_⟩
  · intro hv
    constructor
    · simp only [exec, hg, hlk, happT hv]
    · simp only [exec, hg, hlk, happT hv, lookupRowInDb, getA_setA]
      exact lookupRow_setRowVals tbl.rows rid row (row.set i v) hlk
  · intro hv
    constructor
    · simp only [exec, hg, hlk, happF hv]
    · simp only [exec, hg, hlk, happF hv, lookupRowInDb, getA_setA]
      exact lookupRow_setRowVals tbl.rows rid row row hlk

def tblDup : Table :=
  ⟨strBytes ("d"), [⟨strBytes ("a"), .int⟩, ⟨strBytes ("a"), .text⟩],
   [(1, [.int 1, .text (strBytes ("x"))])], 2⟩

def dbDup : Database := ⟨[(strBytes ("d"), tblDup)]⟩

/-- C10 witness: on a table declaring two columns both named "a" (first
Int, then Text), updating "a" with an Int value is checked against the
first column's Int type and replaces only index 0 of the row. -/
theorem c10_witness :
    getA dbDup.tables (strBytes ("d")) = some tblDup ∧
    lookupRow tblDup.rows 1 = some [.int 1, .text (strBytes ("x"))] ∧
    firstIdx tblDup.columns (strBytes ("a")) = some 0 ∧
    ((exec (.updateRow (strBytes ("d")) 1 [(strBytes ("a"), .int 5)]) dbDup).1 = .ok .ok ∧
     lookupRowInDb
       (exec (.updateRow (strBytes ("d")) 1 [(strBytes ("a"), .int 5)]) dbDup).2
       (strBytes ("d")) 1 = some ([Value.int 1, Value.text (strBytes ("x"))].set 0 (.int 5))) :=
  ⟨by decide, by decide, by decide,
   (c10_first_column dbDup (strBytes ("d")) tblDup 1 [.int 1, .text (strBytes ("x"))]
     (strBytes ("a")) (.int 5) 0 (by decide) (by decide) (by decide)).2.1 (by decide)⟩
